import Mathlib

/-!
# Verification of the ozelot Yggdrasil authentication core

Shallow embedding, in Lean 4, of the cryptographic and protocol logic of
`src/yggdrasil.rs` and `src/mojang.rs`: the Minecraft-style SHA-1 digest
(`sha1` / `post_sha1`), shared-secret generation (`create_shared_secret`),
RSA encryption of the shared secret (`rsa_encrypt`), the JSON extraction in
`authenticate`, and the session-join / has-joined request constructors.

Bytes are modelled as `Nat` values `< 256`; 32-bit machine words as `Nat`
reduced modulo `2 ^ 32`.  The external openssl SHA-1 primitive
(`hash::hash(MessageDigest::sha1(), data)`) is modelled from the spec as
standard FIPS 180 SHA-1; everything downstream of it is translated directly
from the Rust source.
-/

namespace Ozelot

/-- Truncate to a 32-bit machine word. -/
def w32 (n : Nat) : Nat := n % 4294967296

/-- Rotate a 32-bit word left by `s` bits (`0 < s < 32`). -/
def rotl (s n : Nat) : Nat := w32 (n * 2 ^ s + n / 2 ^ (32 - s))

/-- Big-endian byte rendering of `v`, exactly `k` bytes (most significant first). -/
def beBytes : Nat → Nat → List Nat
  | 0, _ => []
  | k + 1, v => beBytes k (v / 256) ++ [v % 256]

/-- Modelled from the spec: standard SHA-1 message padding (append `0x80`,
zero bytes up to 56 mod 64, then the 64-bit big-endian bit length). -/
def padMsg (data : List Nat) : List Nat :=
  let L := data.length
  let z := (119 - L % 64) % 64
  data ++ [128] ++ List.replicate z 0 ++ beBytes 8 (L * 8)

/-- Assemble 4-byte groups into big-endian 32-bit words. -/
def bytesToWords : List Nat → List Nat
  | a :: b :: c :: d :: rest =>
      (a * 16777216 + b * 65536 + c * 256 + d) :: bytesToWords rest
  | _ => []

/-- Extend the 16-word block to the 80-word SHA-1 message schedule:
each step appends `rotl 1 (W[n-3] xor W[n-8] xor W[n-14] xor W[n-16])`. -/
def expandW : Nat → List Nat → List Nat
  | 0, w => w
  | k + 1, w =>
      let n := w.length
      let x := (w.getD (n - 3) 0) ^^^ (w.getD (n - 8) 0) ^^^
               (w.getD (n - 14) 0) ^^^ (w.getD (n - 16) 0)
      expandW k (w ++ [rotl 1 x])

/-- SHA-1 round constant for round `t`. -/
def fK (t : Nat) : Nat :=
  if t < 20 then 1518500249
  else if t < 40 then 1859775393
  else if t < 60 then 2400959708
  else 3395469782

/-- SHA-1 round function (Ch / Parity / Maj / Parity) for round `t`. -/
def fF (t b c d : Nat) : Nat :=
  if t < 20 then (b &&& c) ||| ((b ^^^ 4294967295) &&& d)
  else if t < 40 then b ^^^ c ^^^ d
  else if t < 60 then (b &&& c) ||| (b &&& d) ||| (c &&& d)
  else b ^^^ c ^^^ d

/-- The 80 SHA-1 compression rounds, consuming the schedule word list. -/
def rounds : List Nat → Nat → Nat × Nat × Nat × Nat × Nat → Nat × Nat × Nat × Nat × Nat
  | [], _, st => st
  | wt :: rest, t, (a, b, c, d, e) =>
      let tmp := w32 (rotl 5 a + fF t b c d + e + fK t + wt)
      rounds rest (t + 1) (tmp, a, rotl 30 b, c, d)

/-- One SHA-1 block step: run the 80 rounds and add the result into the state. -/
def processBlock (st : Nat × Nat × Nat × Nat × Nat) (block : List Nat) :
    Nat × Nat × Nat × Nat × Nat :=
  let w := expandW 64 (bytesToWords block)
  let r := rounds w 0 st
  (w32 (st.1 + r.1), w32 (st.2.1 + r.2.1), w32 (st.2.2.1 + r.2.2.1),
   w32 (st.2.2.2.1 + r.2.2.2.1), w32 (st.2.2.2.2 + r.2.2.2.2))

/-- The SHA-1 initial state. -/
def initState : Nat × Nat × Nat × Nat × Nat :=
  (1732584193, 4023233417, 2562383102, 271733878, 3285377520)

/-- Split into 64-byte blocks; the fuel argument is an upper bound on the
number of elements, keeping the recursion structural. -/
def chunks64 : Nat → List Nat → List (List Nat)
  | 0, _ => []
  | _, [] => []
  | k + 1, bytes => bytes.take 64 :: chunks64 k (bytes.drop 64)

/-- Render the final state as the 20-byte digest. -/
def digestBytes (st : Nat × Nat × Nat × Nat × Nat) : List Nat :=
  beBytes 4 st.1 ++ beBytes 4 st.2.1 ++ beBytes 4 st.2.2.1 ++
  beBytes 4 st.2.2.2.1 ++ beBytes 4 st.2.2.2.2

/-- Modelled from the spec: the "standard 20-byte SHA-1 digest" computed by
the openssl call `hash::hash(MessageDigest::sha1(), data)` in
`yggdrasil::sha1` (the primitive itself is outside `src/`). -/
def sha1core (data : List Nat) : List Nat :=
  let padded := padMsg data
  digestBytes ((chunks64 padded.length padded).foldl processBlock initState)

/-- Lowercase hexadecimal digit character for a nibble. -/
def hexDigitChar (n : Nat) : Char :=
  if n < 10 then Char.ofNat (48 + n) else Char.ofNat (87 + n)

/-- The Rust `write!(&mut tmp, "{:02x}", byte)`: two lowercase hex digits of a
byte (digest bytes are always `< 256`). -/
def hexByte (b : Nat) : List Char := [hexDigitChar (b / 16), hexDigitChar (b % 16)]

/-- The concatenated `{:02x}` rendering of a byte list (the `tmp` string). -/
def hexConcat : List Nat → List Char
  | [] => []
  | b :: rest => hexByte b ++ hexConcat rest

/-- The Rust byte inversion `*byte ^= 0xff`. -/
def invByte (b : Nat) : Nat := b ^^^ 255

/-- The Rust carry loop `for byte in digest.iter_mut().rev() { ... }` adding 1,
expressed on the reversed (least-significant-first) byte list: a 255 byte
becomes 0 and the carry continues; any other byte is incremented and the loop
breaks, leaving the remaining bytes untouched. -/
def addOneLE : List Nat → List Nat
  | [] => []
  | b :: rest => if b = 255 then 0 :: addOneLE rest else (b + 1) :: rest

/-- The in-place two's complement of `yggdrasil::sha1`: invert every byte,
then add 1 starting from the last byte. -/
def twosComp (d : List Nat) : List Nat :=
  (addOneLE ((d.map invByte).reverse)).reverse

/-- The final copy loop of `yggdrasil::sha1`: skip characters until the first
one that is not `'0'`, then keep everything. -/
def stripZeros (cs : List Char) : List Char := cs.dropWhile (fun c => c = '0')

/-- The rendering stage of `yggdrasil::sha1`, operating on the 20-byte digest
returned by the hash call: branch on `digest[0] >= 128` (the digest is never
empty, see `sha1core_length`; the empty case defaults to byte 0), complement
if negative, write the bytes in hex, then strip leading zeros and prepend the
sign. -/
def mcRender (digest : List Nat) : String :=
  let negative := 128 ≤ digest.headD 0
  let digest2 := if negative then twosComp digest else digest
  let tmp := hexConcat digest2
  String.mk ((if negative then ['-'] else []) ++ stripZeros tmp)

/-- `yggdrasil::sha1`: the Minecraft-style SHA-1 of a byte string. -/
def mcSha1 (data : List Nat) : String := mcRender (sha1core data)

/-- `mcRender` with the `digest[0]` access made explicit: `none` models the
panic a Rust index of an empty slice would raise. -/
def mcRenderChecked (digest : List Nat) : Option String :=
  match digest.head? with
  | none => none
  | some _ => some (mcRender digest)

/-- `yggdrasil::sha1` with its only possible panic point modelled: indexing
`digest[0]` on the hash output. -/
def mcSha1Checked (data : List Nat) : Option String :=
  mcRenderChecked (sha1core data)

/-- The UTF-8 encoding of one character, modelling Rust `str::as_bytes`. -/
def utf8Bytes (c : Char) : List Nat :=
  let n := c.toNat
  if n < 128 then [n]
  else if n < 2048 then [192 + n / 64, 128 + n % 64]
  else if n < 65536 then [224 + n / 4096, 128 + n / 64 % 64, 128 + n % 64]
  else [240 + n / 262144, 128 + n / 4096 % 64, 128 + n / 64 % 64, 128 + n % 64]

/-- The UTF-8 byte list of a string (`server_id.as_bytes()`). -/
def strBytes (s : String) : List Nat := s.data.foldr (fun c acc => utf8Bytes c ++ acc) []

/-- `yggdrasil::post_sha1`: concatenate the serverId bytes, the shared secret
and the server public key, and hash the result Minecraft-style. -/
def post_sha1 (server_id : String) (shared_secret server_public_key : List Nat) : String :=
  mcSha1 (strBytes server_id ++ shared_secret ++ server_public_key)

/-- The big-endian numeric value of a byte list. -/
def beVal (d : List Nat) : Nat := d.foldl (fun acc b => acc * 256 + b) 0

/-- Fixed-width big-endian lowercase hexadecimal rendering: exactly `k`
digits, most significant first. -/
def natHexFixed : Nat → Nat → List Char
  | 0, _ => []
  | k + 1, n => natHexFixed k (n / 16) ++ [hexDigitChar (n % 16)]

/-- Written from the spec's words, for comparison with `mcRender`: interpret
the 20-byte digest as a big-endian two's-complement integer; the magnitude
(as a 160-bit quantity) is rendered as lowercase hex with all leading `'0'`
characters stripped, and the string is prefixed with `'-'` exactly when the
first digest byte is `≥ 0x80`. -/
def renderSpec (d : List Nat) : String :=
  let n := beVal d
  if 128 ≤ d.headD 0 then
    String.mk ('-' :: stripZeros (natHexFixed 40 (2 ^ 160 - n)))
  else
    String.mk (stripZeros (natHexFixed 40 n))

/-- Written from the spec's words, for comparison with `post_sha1`: the
signed-magnitude hexadecimal rendering of the SHA-1 of
`serverId bytes ++ sharedSecret ++ serverPublicKey`. -/
def digest_spec (server_id : String) (shared_secret server_public_key : List Nat) : String :=
  renderSpec (sha1core (strBytes server_id ++ shared_secret ++ server_public_key))

/-! ## JSON model and the `authenticate` response extraction

`rustc_serialize::json::Json` is modelled as an inductive; `Json::find`
returns the value stored under a key when the value is an object. -/

/-- The JSON value type of `rustc_serialize`, as used by `authenticate`. -/
inductive Json where
  | null : Json
  | boolean : Bool → Json
  | str : String → Json
  | num : Int → Json
  | arr : List Json → Json
  | obj : List (String × Json) → Json

/-- Key lookup in an object's field list. -/
def lookupKV : List (String × Json) → String → Option Json
  | [], _ => none
  | (k, v) :: rest, key => if k = key then some v else lookupKV rest key

/-- `rustc_serialize`'s `Json::find`: if the value is an object, return the
value associated with the key, otherwise `None`. -/
def Json.find : Json → String → Option Json
  | .obj kvs, key => lookupKV kvs key
  | _, _ => none

/-- Lines 69–94 of `yggdrasil.rs`: the pure extraction that `authenticate`
performs on the parsed response JSON, returning
`(accessToken, clientToken, username, uuid)`.  Note that the source looks up
the `"accessToken"` field a second time for the `clientToken` value. -/
def authenticate_extract (data : Json) :
    Except String (String × String × String × String) :=
  match data.find "accessToken" with
  | some (Json.str accessToken) =>
    match data.find "accessToken" with
    | some (Json.str clientToken) =>
      match data.find "selectedProfile" with
      | some profile =>
        match profile.find "id" with
        | some (Json.str uuid) =>
          match profile.find "name" with
          | some (Json.str username) =>
            Except.ok (accessToken, clientToken, username, uuid)
          | _ => Except.error "client::authenticate did not contain name"
        | _ => Except.error "client::authenticate did not contain uuid"
      | none => Except.error "client::authenticate did not contain selectedProfile"
    | _ => Except.error "client::authenticate did not contain clientToken"
  | _ => Except.error "client::authenticate did not contain accessToken"

/-- A well-formed authentication response whose `accessToken` and
`clientToken` fields differ, together with a `selectedProfile`. -/
def authJson : Json :=
  Json.obj [("accessToken", Json.str "token-A"),
            ("clientToken", Json.str "token-C"),
            ("selectedProfile",
             Json.obj [("id", Json.str "uuid-1"), ("name", Json.str "player")])]

/-! ## Shared-secret generation and RSA encryption

The openssl primitives (`rand::rand_bytes`, `Rsa::public_key_from_der`,
`public_encrypt`) live outside `src/` and are modelled as explicit oracle
parameters.  The distinguishable failure outcomes of `yggdrasil.rs` are named
after the spec's error kinds: the panic in `create_shared_secret` (fatal, as
the spec describes `RandomSourceError`) and the two distinct `io_error!`
branches of `rsa_encrypt`. -/

/-- The failure outcomes of the key-exchange helpers. -/
inductive YggError where
  | RandomSourceError : YggError
  | InvalidPublicKey : YggError
  | EncryptionFailed : YggError
deriving DecidableEq

/-- `yggdrasil::create_shared_secret`: allocate a 16-byte buffer, ask the
random generator (`rand`, modelling `openssl::rand::rand_bytes`, which
overwrites the buffer it is given or fails) to fill it, and return it.  The
`panic!` on generator failure is modelled as the `RandomSourceError` outcome,
which the spec describes as fatal to the process. -/
def create_shared_secret (rand : List Nat → Except Unit (List Nat)) :
    Except YggError (List Nat) :=
  match rand (List.replicate 16 0) with
  | Except.ok ret => Except.ok ret
  | Except.error _ => Except.error YggError.RandomSourceError

/-- `yggdrasil::rsa_encrypt`: parse the DER public key (`parse`, modelling
`Rsa::public_key_from_der`, with `none` for a parse error), allocate a
128-byte output buffer, and call `enc` (modelling `public_encrypt`, which
overwrites the buffer and reports how many bytes it wrote, or fails).  Only
a report of exactly 128 written bytes is accepted. -/
def rsa_encrypt {K : Type} (parse : List Nat → Option K)
    (enc : K → List Nat → List Nat → Except Unit (Nat × List Nat))
    (pubkey data : List Nat) : Except YggError (List Nat) :=
  match parse pubkey with
  | none => Except.error YggError.InvalidPublicKey
  | some key =>
    match enc key data (List.replicate 128 0) with
    | Except.ok (n, ret) =>
      if n = 128 then Except.ok ret else Except.error YggError.EncryptionFailed
    | Except.error _ => Except.error YggError.EncryptionFailed

/-! ## The mojang.rs session requests -/

/-- The `SessionJoin` request payload of `mojang.rs`. -/
structure SessionJoin where
  accessToken : String
  selectedProfile : String
  serverId : String
deriving DecidableEq

/-- `SessionJoin::new`: the `serverId` field is the Minecraft digest of the
three handshake inputs. -/
def SessionJoin.new (access_token uuid : String) (server_id : String)
    (shared_secret server_public_key : List Nat) : SessionJoin :=
  { accessToken := access_token,
    selectedProfile := uuid,
    serverId := post_sha1 server_id shared_secret server_public_key }

/-- The `SessionHasJoined` request of `mojang.rs`. -/
structure SessionHasJoined where
  username : String
  serverId : String
deriving DecidableEq

/-- `SessionHasJoined::new`: the server-side check carries the digest of the
same three inputs. -/
def SessionHasJoined.new (username : String) (server_id : String)
    (shared_secret public_key : List Nat) : SessionHasJoined :=
  { username := username,
    serverId := post_sha1 server_id shared_secret public_key }

/-! ## Value lemmas for byte lists -/

/-- The little-endian numeric value of a byte list (proof helper for the
carry loop, which runs least-significant-byte first). -/
def leVal : List Nat → Nat
  | [] => 0
  | b :: rest => b + 256 * leVal rest

theorem beVal_acc (d : List Nat) :
    ∀ acc : Nat, d.foldl (fun acc b => acc * 256 + b) acc =
      acc * 256 ^ d.length + d.foldl (fun acc b => acc * 256 + b) 0 := by
  induction d with
  | nil => intro acc; simp
  | cons b rest ih =>
      intro acc
      simp only [List.foldl_cons, List.length_cons]
      rw [ih (acc * 256 + b), ih (0 * 256 + b)]
      ring

theorem beVal_cons (b : Nat) (d : List Nat) :
    beVal (b :: d) = b * 256 ^ d.length + beVal d := by
  simp only [beVal, List.foldl_cons]
  rw [beVal_acc]
  ring_nf

theorem beVal_append_one (d : List Nat) (b : Nat) :
    beVal (d ++ [b]) = beVal d * 256 + b := by
  simp only [beVal, List.foldl_append, List.foldl_cons, List.foldl_nil]

theorem beVal_lt (d : List Nat) (h : ∀ b ∈ d, b < 256) :
    beVal d < 256 ^ d.length := by
  induction d with
  | nil => simp [beVal]
  | cons b rest ih =>
      have hb : b < 256 := h b (List.mem_cons_self b rest)
      have hrest : ∀ x ∈ rest, x < 256 := fun x hx => h x (List.mem_cons_of_mem b hx)
      have := ih hrest
      rw [beVal_cons]
      calc b * 256 ^ rest.length + beVal rest
          < b * 256 ^ rest.length + 256 ^ rest.length := by omega
        _ = (b + 1) * 256 ^ rest.length := by ring
        _ ≤ 256 * 256 ^ rest.length := by
            have : b + 1 ≤ 256 := by omega
            exact Nat.mul_le_mul_right _ this
        _ = 256 ^ (b :: rest).length := by
            simp [List.length_cons, pow_succ]; ring

theorem beVal_eq_leVal_reverse (d : List Nat) : beVal d = leVal d.reverse := by
  induction d using List.reverseRecOn with
  | nil => simp [beVal, leVal]
  | append_singleton d b ih =>
      rw [beVal_append_one]
      have hrev : (d ++ [b]).reverse = b :: d.reverse := by simp
      rw [hrev]
      simp only [leVal]
      omega

/-! ## Hex rendering lemmas -/

theorem hexConcat_append (xs ys : List Nat) :
    hexConcat (xs ++ ys) = hexConcat xs ++ hexConcat ys := by
  induction xs with
  | nil => simp [hexConcat]
  | cons b rest ih => simp [hexConcat, ih]

/-- The byte-by-byte `{:02x}` rendering agrees with the fixed-width
hexadecimal rendering of the big-endian value. -/
theorem hexConcat_eq_natHexFixed (d : List Nat) (h : ∀ b ∈ d, b < 256) :
    hexConcat d = natHexFixed (2 * d.length) (beVal d) := by
  induction d using List.reverseRecOn with
  | nil => simp [hexConcat, beVal, natHexFixed]
  | append_singleton d b ih =>
      have hb : b < 256 := h b (by simp)
      have hd : ∀ x ∈ d, x < 256 := fun x hx => h x (by simp [hx])
      rw [hexConcat_append, ih hd, beVal_append_one]
      have hlen : 2 * (d ++ [b]).length = 2 * d.length + 1 + 1 := by
        simp [List.length_append]; ring
      rw [hlen]
      set v := beVal d with hv
      have e1 : (v * 256 + b) % 16 = b % 16 := by omega
      have e2 : (v * 256 + b) / 16 % 16 = b / 16 := by omega
      have e3 : (v * 256 + b) / 16 / 16 = v := by omega
      simp only [natHexFixed, e1, e2, e3, hexConcat, hexByte]
      simp

/-! ## Two's-complement lemmas -/

set_option maxRecDepth 4000 in
theorem invByte_eq : ∀ b < 256, invByte b = 255 - b := by decide

theorem addOneLE_length (l : List Nat) : (addOneLE l).length = l.length := by
  induction l with
  | nil => rfl
  | cons b rest ih =>
      by_cases hb : b = 255
      · simp [addOneLE, hb, ih]
      · simp [addOneLE, hb]

theorem addOneLE_lt (l : List Nat) (h : ∀ b ∈ l, b < 256) :
    ∀ b ∈ addOneLE l, b < 256 := by
  induction l with
  | nil => intro b hb; simp [addOneLE] at hb
  | cons x rest ih =>
      intro b hb
      by_cases hx : x = 255
      · rw [addOneLE, if_pos hx] at hb
        rcases List.mem_cons.mp hb with h0 | h1
        · omega
        · exact ih (fun y hy => h y (List.mem_cons_of_mem x hy)) b h1
      · rw [addOneLE, if_neg hx] at hb
        rcases List.mem_cons.mp hb with h0 | h1
        · have := h x (List.mem_cons_self x rest)
          omega
        · exact h b (List.mem_cons_of_mem x h1)

theorem leVal_addOneLE (l : List Nat) (h : ∃ b ∈ l, b ≠ 255) :
    leVal (addOneLE l) = leVal l + 1 := by
  induction l with
  | nil => simp at h
  | cons x rest ih =>
      by_cases hx : x = 255
      · subst hx
        rw [addOneLE, if_pos rfl]
        have hrest : ∃ b ∈ rest, b ≠ 255 := by
          rcases h with ⟨b, hb, hne⟩
          rcases List.mem_cons.mp hb with h0 | h1
          · omega
          · exact ⟨b, h1, hne⟩
        simp only [leVal, ih hrest]
        ring
      · rw [addOneLE, if_neg hx]
        simp only [leVal]
        omega

theorem beVal_map_inv (d : List Nat) (h : ∀ b ∈ d, b < 256) :
    beVal (d.map invByte) = 256 ^ d.length - 1 - beVal d := by
  induction d using List.reverseRecOn with
  | nil => simp [beVal]
  | append_singleton d b ih =>
      have hb : b < 256 := h b (by simp)
      have hd : ∀ x ∈ d, x < 256 := fun x hx => h x (by simp [hx])
      have hv := beVal_lt d hd
      rw [List.map_append, List.map_singleton, beVal_append_one,
        beVal_append_one, ih hd, invByte_eq b hb]
      have hpow : 256 ^ (d ++ [b]).length = 256 ^ d.length * 256 := by
        simp [List.length_append, pow_succ]
      rw [hpow]
      omega

theorem twosComp_length (d : List Nat) : (twosComp d).length = d.length := by
  simp [twosComp, addOneLE_length]

theorem twosComp_lt (d : List Nat) (h : ∀ b ∈ d, b < 256) :
    ∀ b ∈ twosComp d, b < 256 := by
  intro b hb
  rw [twosComp, List.mem_reverse] at hb
  refine addOneLE_lt _ ?_ b hb
  intro x hx
  rw [List.mem_reverse, List.mem_map] at hx
  rcases hx with ⟨y, hy, hxy⟩
  have := h y hy
  rw [← hxy, invByte_eq y this]
  omega

theorem beVal_twosComp (d : List Nat) (hb : ∀ b ∈ d, b < 256)
    (hne : d ≠ []) (hhead : 128 ≤ d.headD 0) :
    beVal (twosComp d) = 256 ^ d.length - beVal d := by
  have hvd := beVal_lt d hb
  have hex : ∃ b ∈ (d.map invByte).reverse, b ≠ 255 := by
    rcases List.exists_cons_of_ne_nil hne with ⟨x, rest, hcons⟩
    subst hcons
    have hx : x < 256 := hb x (List.mem_cons_self x rest)
    have hxh : 128 ≤ x := by simpa using hhead
    refine ⟨invByte x, ?_, ?_⟩
    · rw [List.mem_reverse, List.mem_map]
      exact ⟨x, List.mem_cons_self x rest, rfl⟩
    · rw [invByte_eq x hx]
      omega
  have h1 : beVal (twosComp d) = leVal (addOneLE ((d.map invByte).reverse)) := by
    rw [twosComp, beVal_eq_leVal_reverse, List.reverse_reverse]
  rw [h1, leVal_addOneLE _ hex, ← beVal_eq_leVal_reverse, beVal_map_inv d hb]
  omega

/-! ## The rendering equivalence -/

/-- The byte-loop rendering of `yggdrasil::sha1` agrees with the spec's
arithmetic description on every 20-byte digest. -/
theorem mcRender_eq_renderSpec (d : List Nat) (hl : d.length = 20)
    (hb : ∀ b ∈ d, b < 256) : mcRender d = renderSpec d := by
  have hne : d ≠ [] := by intro h; rw [h] at hl; simp at hl
  by_cases hneg : 128 ≤ d.headD 0
  · rw [mcRender, renderSpec]
    simp only [if_pos hneg]
    have h2 : hexConcat (twosComp d) =
        natHexFixed (2 * (twosComp d).length) (beVal (twosComp d)) :=
      hexConcat_eq_natHexFixed _ (twosComp_lt d hb)
    rw [h2, twosComp_length, hl, beVal_twosComp d hb hne hneg, hl]
    norm_num
  · rw [mcRender, renderSpec]
    simp only [if_neg hneg]
    rw [hexConcat_eq_natHexFixed d hb, hl]
    norm_num

/-! ## Digest shape facts -/

theorem beBytes_length (k : Nat) : ∀ v : Nat, (beBytes k v).length = k := by
  induction k with
  | zero => intro v; rfl
  | succ k ih => intro v; simp [beBytes, ih]

theorem beBytes_lt (k : Nat) : ∀ v : Nat, ∀ b ∈ beBytes k v, b < 256 := by
  induction k with
  | zero => intro v b hb; simp [beBytes] at hb
  | succ k ih =>
      intro v b hb
      rw [beBytes] at hb
      rcases List.mem_append.mp hb with h1 | h2
      · exact ih _ b h1
      · have : b = v % 256 := by simpa using h2
        omega

theorem digestBytes_length (st : Nat × Nat × Nat × Nat × Nat) :
    (digestBytes st).length = 20 := by
  simp [digestBytes, beBytes_length]

theorem digestBytes_lt (st : Nat × Nat × Nat × Nat × Nat) :
    ∀ b ∈ digestBytes st, b < 256 := by
  intro b hb
  rw [digestBytes] at hb
  simp only [List.mem_append] at hb
  rcases hb with (((h | h) | h) | h) | h <;> exact beBytes_lt 4 _ b h

/-- The hash output always has exactly 20 bytes. -/
theorem sha1core_length (data : List Nat) : (sha1core data).length = 20 := by
  rw [sha1core]; exact digestBytes_length _

/-- Every byte of the hash output is below 256. -/
theorem sha1core_lt (data : List Nat) : ∀ b ∈ sha1core data, b < 256 := by
  rw [sha1core]; exact digestBytes_lt _

/-! ## Nonzero digests render to nonempty digit strings -/

theorem mcRender_neg (d : List Nat) (hneg : 128 ≤ d.headD 0) :
    mcRender d = String.mk ('-' :: stripZeros (hexConcat (twosComp d))) := by
  have hneg' : 128 ≤ d.head?.getD 0 := by simpa using hneg
  simp [mcRender, hneg']

theorem beVal_exists_ne_zero (l : List Nat) (h : beVal l ≠ 0) :
    ∃ b ∈ l, b ≠ 0 := by
  induction l with
  | nil => simp [beVal] at h
  | cons b rest ih =>
      rw [beVal_cons] at h
      by_cases hb : b = 0
      · subst hb
        simp only [Nat.zero_mul, Nat.zero_add] at h
        rcases ih h with ⟨x, hx, hxne⟩
        exact ⟨x, List.mem_cons_of_mem _ hx, hxne⟩
      · exact ⟨b, List.mem_cons_self _ _, hb⟩

theorem hexDigitChar_ne : ∀ n < 16, n ≠ 0 → hexDigitChar n ≠ '0' := by decide

theorem exists_ne_zero_char_hexConcat (l : List Nat) (hb : ∀ b ∈ l, b < 256)
    (h : ∃ b ∈ l, b ≠ 0) : ∃ c ∈ hexConcat l, c ≠ '0' := by
  induction l with
  | nil => simp at h
  | cons x rest ih =>
      rcases h with ⟨b, hmem, hne⟩
      rcases List.mem_cons.mp hmem with h0 | h1
      · subst h0
        have hblt : b < 256 := hb b hmem
        by_cases hh : b / 16 = 0
        · refine ⟨hexDigitChar (b % 16), ?_, hexDigitChar_ne _ (by omega) (by omega)⟩
          simp [hexConcat, hexByte]
        · refine ⟨hexDigitChar (b / 16), ?_, hexDigitChar_ne _ (by omega) hh⟩
          simp [hexConcat, hexByte]
      · have hrest : ∀ y ∈ rest, y < 256 := fun y hy => hb y (List.mem_cons_of_mem x hy)
        rcases ih hrest ⟨b, h1, hne⟩ with ⟨c, hc, hcne⟩
        refine ⟨c, ?_, hcne⟩
        rw [hexConcat]
        exact List.mem_append_right _ hc

theorem stripZeros_ne_nil (cs : List Char) (h : ∃ c ∈ cs, c ≠ '0') :
    stripZeros cs ≠ [] := by
  induction cs with
  | nil => simp at h
  | cons c rest ih =>
      by_cases hc : c = '0'
      · subst hc
        have hrest : ∃ x ∈ rest, x ≠ '0' := by
          rcases h with ⟨x, hx, hne⟩
          rcases List.mem_cons.mp hx with h0 | h1
          · exact absurd h0 hne
          · exact ⟨x, h1, hne⟩
        simpa [stripZeros, List.dropWhile_cons] using ih hrest
      · simp [stripZeros, List.dropWhile_cons, hc]

/-! ## The claims -/

/-- Claim C1 (code bug): on the well-formed response `authJson`, whose
`accessToken` field is `"token-A"` and whose `clientToken` field is
`"token-C"`, `authenticate` extracts `"token-A"` as the clientToken — the
source reads the `accessToken` field a second time instead of the
`clientToken` field, so the returned clientToken is not taken from the
response's `clientToken` field. -/
theorem claim_C1_clientToken_read_from_accessToken :
    authenticate_extract authJson =
      Except.ok ("token-A", "token-A", "player", "uuid-1") ∧
    ("token-A" : String) ≠ "token-C" := by
  constructor
  · rfl
  · decide

/-- Claim C2: for every serverId string and byte strings sharedSecret and
serverPublicKey, the digest function returns the signed-magnitude
hexadecimal rendering of the 20-byte SHA-1 of the concatenation serverId
bytes, then sharedSecret, then serverPublicKey: the digest read as a
big-endian two's-complement integer, its magnitude written in lowercase hex
with all leading zero characters stripped, prefixed with a minus sign
exactly when the first digest byte is at least 0x80. -/
theorem claim_C2_digest_signed_magnitude (server_id : String)
    (shared_secret server_public_key : List Nat) :
    post_sha1 server_id shared_secret server_public_key =
      digest_spec server_id shared_secret server_public_key := by
  rw [post_sha1, digest_spec, mcSha1]
  exact mcRender_eq_renderSpec _ (sha1core_length _) (sha1core_lt _)

set_option maxRecDepth 100000 in
/-- Claim C3: the Minecraft-style SHA-1 of the ASCII bytes of `"Ozelot"`,
`"Cactus"` and `"Bobcat"` equals the three fixture strings of the source's
test module. -/
theorem claim_C3_test_vectors :
    mcSha1 (strBytes "Ozelot") = "5cfe44b70ee91ccccdb05b1ab8b328d5d8632cbf" ∧
    mcSha1 (strBytes "Cactus") = "-43468c66aebd37d40b99237799da0772d04308" ∧
    mcSha1 (strBytes "Bobcat") = "-da0143edc7918223fcc86951a195a5212c77c3f" :=
  ⟨by decide, by decide, by decide⟩

/-- Claim C4: `create_shared_secret` returns exactly the 16 bytes the random
generator wrote into its buffer, and when the generator fails it surfaces
`RandomSourceError` (the modelled outcome of the source's fatal panic). -/
theorem claim_C4_shared_secret (rand : List Nat → Except Unit (List Nat))
    (hlen : ∀ buf out, rand buf = Except.ok out → out.length = buf.length) :
    (∀ out, create_shared_secret rand = Except.ok out →
      out.length = 16 ∧ rand (List.replicate 16 0) = Except.ok out) ∧
    (∀ e, rand (List.replicate 16 0) = Except.error e →
      create_shared_secret rand = Except.error YggError.RandomSourceError) := by
  constructor
  · intro out h
    rw [create_shared_secret] at h
    split at h
    · rename_i ret hr
      have hout : ret = out := by simpa using h
      subst hout
      exact ⟨by simpa using hlen _ _ hr, hr⟩
    · exact Except.noConfusion h
  · intro e he
    rw [create_shared_secret]
    split
    · rename_i ret hr
      rw [he] at hr
      exact Except.noConfusion hr
    · rfl

/-- Claim C4 witness: an always-succeeding generator yields the 16-byte
buffer, and a failing generator yields `RandomSourceError`. -/
theorem claim_C4_witness :
    (List.replicate 16 0).length = 16 ∧
    create_shared_secret (fun _ => Except.error ()) =
      Except.error YggError.RandomSourceError :=
  ⟨((claim_C4_shared_secret (fun buf => Except.ok buf)
      (by intro buf out h; injection h with h; rw [h])).1
      (List.replicate 16 0) rfl).1,
   (claim_C4_shared_secret (fun _ => Except.error ())
      (by intro buf out h; cases h)).2 () rfl⟩

/-- Claim C5: `rsa_encrypt` succeeds only with a 128-byte ciphertext, and
whenever the encryption primitive reports a written length other than 128 or
an error, it returns the bare `EncryptionFailed` outcome (no ciphertext). -/
theorem claim_C5_rsa_encrypt_length {K : Type} (parse : List Nat → Option K)
    (enc : K → List Nat → List Nat → Except Unit (Nat × List Nat))
    (hlen : ∀ k data buf n out, enc k data buf = Except.ok (n, out) →
      out.length = buf.length)
    (pubkey data : List Nat) :
    (∀ out, rsa_encrypt parse enc pubkey data = Except.ok out →
      out.length = 128) ∧
    (∀ k, parse pubkey = some k →
      (∀ out, enc k data (List.replicate 128 0) ≠ Except.ok (128, out)) →
      rsa_encrypt parse enc pubkey data =
        Except.error YggError.EncryptionFailed) := by
  constructor
  · intro out h
    rw [rsa_encrypt] at h
    split at h
    · exact Except.noConfusion h
    · rename_i k hk
      split at h
      · rename_i n ret he
        split at h
        · rename_i hn
          have hout : ret = out := by simpa using h
          have := hlen k data (List.replicate 128 0) n ret he
          rw [hout] at this
          simpa using this
        · exact Except.noConfusion h
      · exact Except.noConfusion h
  · intro k hk hne
    rw [rsa_encrypt]
    split
    · rename_i hnone
      rw [hk] at hnone
      exact Option.noConfusion hnone
    · rename_i k' hk'
      rw [hk] at hk'
      injection hk' with hkk
      subst hkk
      split
      · rename_i n ret he
        split
        · rename_i hn
          exact absurd (hn ▸ he) (hne ret)
        · rfl
      · rfl

/-- Claim C5 witness: an oracle that reports 128 written bytes yields a
128-byte ciphertext; one that reports 127 yields `EncryptionFailed`. -/
theorem claim_C5_witness :
    (List.replicate 128 0).length = 128 ∧
    rsa_encrypt (fun _ => some ()) (fun _ _ buf => Except.ok (127, buf))
      ([] : List Nat) ([] : List Nat) =
      Except.error YggError.EncryptionFailed :=
  ⟨(claim_C5_rsa_encrypt_length (fun _ => some ())
      (fun _ _ buf => Except.ok (128, buf))
      (by intro k d b n o h; injection h with h; injection h with h1 h2; rw [← h2])
      [] []).1 (List.replicate 128 0) rfl,
   (claim_C5_rsa_encrypt_length (fun _ => some ())
      (fun _ _ buf => Except.ok (127, buf))
      (by intro k d b n o h; injection h with h; injection h with h1 h2; rw [← h2])
      [] []).2 () rfl
      (by intro out h; injection h with h; injection h with h1 h2; omega)⟩

/-- Claim C6: whenever the DER parser rejects the public key bytes,
`rsa_encrypt` fails with `InvalidPublicKey` for every plaintext (and returns
no ciphertext). -/
theorem claim_C6_invalid_der {K : Type} (parse : List Nat → Option K)
    (enc : K → List Nat → List Nat → Except Unit (Nat × List Nat))
    (pubkey : List Nat) (hbad : parse pubkey = none) (data : List Nat) :
    rsa_encrypt parse enc pubkey data =
      Except.error YggError.InvalidPublicKey := by
  rw [rsa_encrypt, hbad]

/-- Claim C6 witness: a parser that rejects everything makes `rsa_encrypt`
fail with `InvalidPublicKey` on a concrete input. -/
theorem claim_C6_witness :
    rsa_encrypt (fun _ => (none : Option Unit))
      (fun _ _ buf => Except.ok (128, buf)) ([] : List Nat) ([] : List Nat) =
      Except.error YggError.InvalidPublicKey :=
  claim_C6_invalid_der (fun _ => (none : Option Unit))
    (fun _ _ buf => Except.ok (128, buf)) [] rfl []

/-- Claim C7: the session-join payload's `serverId` field equals the digest
of the three handshake inputs, and the has-joined request built from the
same three inputs carries the identical digest string. -/
theorem claim_C7_join_hasJoined_same_digest
    (access_token uuid username server_id : String)
    (shared_secret server_public_key : List Nat) :
    (SessionJoin.new access_token uuid server_id shared_secret
        server_public_key).serverId =
      post_sha1 server_id shared_secret server_public_key ∧
    (SessionHasJoined.new username server_id shared_secret
        server_public_key).serverId =
      (SessionJoin.new access_token uuid server_id shared_secret
        server_public_key).serverId :=
  ⟨rfl, rfl⟩

/-- Claim C8 counterexample: on the all-zero 20-byte digest the rendering
stage returns the empty string, not `"0"` — the source strips leading zero
characters unconditionally. -/
theorem claim_C8_counterexample :
    mcRender (List.replicate 20 0) ≠ "0" := by decide

/-- Claim C8 (amended): if the 20-byte digest is entirely zero, the digest
function returns the empty string. -/
theorem claim_C8_zero_digest_renders_empty :
    mcRender (List.replicate 20 0) = "" := by decide

/-- Claim C9: the digest function is total on every byte list — the SHA-1
stage always yields exactly 20 bytes, so the `digest[0]` access (the only
panic point, modelled by `mcSha1Checked`) never fails and a string is always
returned. -/
theorem claim_C9_total_no_panic (data : List Nat) :
    (sha1core data).length = 20 ∧
    mcSha1Checked data = some (mcSha1 data) := by
  refine ⟨sha1core_length data, ?_⟩
  have h : sha1core data ≠ [] := by
    intro h
    have := sha1core_length data
    rw [h] at this
    simp at this
  rcases List.exists_cons_of_ne_nil h with ⟨x, rest, hcons⟩
  rw [mcSha1Checked, mcRenderChecked, mcSha1, hcons]
  rfl

/-- Claim C10: for every input whose SHA-1 digest begins with a byte at
least 0x80, the two's-complement magnitude is nonzero, so the rendered
string is never the bare minus sign: at least one hex digit follows it. -/
theorem claim_C10_never_bare_minus (data : List Nat)
    (hneg : 128 ≤ (sha1core data).headD 0) :
    twosComp (sha1core data) ≠ List.replicate 20 0 ∧
    mcSha1 data ≠ "-" := by
  have hl : (sha1core data).length = 20 := sha1core_length data
  have hb : ∀ b ∈ sha1core data, b < 256 := sha1core_lt data
  have hne : sha1core data ≠ [] := by
    intro h; rw [h] at hl; simp at hl
  have hval : beVal (twosComp (sha1core data)) =
      256 ^ (sha1core data).length - beVal (sha1core data) :=
    beVal_twosComp _ hb hne hneg
  have hlt : beVal (sha1core data) < 256 ^ (sha1core data).length :=
    beVal_lt _ hb
  have hpos : beVal (twosComp (sha1core data)) ≠ 0 := by omega
  constructor
  · intro hz
    rw [hz] at hpos
    have hzero : beVal (List.replicate 20 0) = 0 := by decide
    exact hpos hzero
  · intro hcontra
    rw [mcSha1, mcRender_neg _ hneg] at hcontra
    have hdat := congrArg String.data hcontra
    simp only [String.data] at hdat
    have hnil : stripZeros (hexConcat (twosComp (sha1core data))) = [] := by
      have : ('-' :: stripZeros (hexConcat (twosComp (sha1core data)))) =
          ['-'] := hdat
      simpa using this
    have hex : ∃ b ∈ twosComp (sha1core data), b ≠ 0 :=
      beVal_exists_ne_zero _ hpos
    have hch : ∃ c ∈ hexConcat (twosComp (sha1core data)), c ≠ '0' :=
      exists_ne_zero_char_hexConcat _ (twosComp_lt _ hb) hex
    exact stripZeros_ne_nil _ hch hnil

set_option maxRecDepth 100000 in
/-- Claim C10 witness: the digest of `"Cactus"` starts with byte 0xff, its
two's complement is nonzero, and the rendered string is not the bare minus
sign. -/
theorem claim_C10_witness :
    128 ≤ (sha1core (strBytes "Cactus")).headD 0 ∧
    (twosComp (sha1core (strBytes "Cactus")) ≠ List.replicate 20 0 ∧
     mcSha1 (strBytes "Cactus") ≠ "-") :=
  ⟨by decide, claim_C10_never_bare_minus _ (by decide)⟩

end Ozelot
